import Mathlib

/-!
Verification development for the libbitcoin seeding session
(src/src/network/session_seed.cpp) and the inventory-request responder
(src/include/bitcoin/getx_responder.hpp).

The session code is embedded as a trace semantics: each seed pipeline
(connect, handshake, address exchange) contributes a list of atomic
actions, a full bootstrap run is an arbitrary interleaving of those
per-seed traces, and the session state (host-set size, synchronizer
count, completion invocations) is folded over the interleaved trace.
-/

namespace Libbitcoin

/-- Error codes, from bitcoin/error.hpp as used by session_seed.cpp:
success, operation_failed, and arbitrary transport or protocol errors
(connect and handshake failures carry such codes). -/
inductive code where
  | success
  | operation_failed
  | other (n : Nat)
deriving DecidableEq

/-- config::endpoint, a (host, port) pair, as used for seeds. -/
structure endpoint where
  host : String
  port : Nat
deriving DecidableEq

/-- The environment-chosen outcome of one seed pipeline: the code
delivered by connector::connect, the code delivered by the
protocol_version handshake (relevant only when connect succeeded), the
code delivered by the protocol_seed completion (relevant only when the
handshake succeeded), and the net host-set growth produced by the
address-exchange stage before it signals completion. -/
structure seed_outcome where
  connect_ec : code
  handshake_ec : code
  exchange_ec : code
  inserts : Nat
deriving DecidableEq

/-- Protocols attached to a peer channel by session_seed. -/
inductive proto where
  | version
  | ping
  | seed
deriving DecidableEq

/-- The callback a protocol is constructed with in session_seed.cpp:
protocol_version receives the handle_handshake delegate, protocol_ping
receives no completion callback, protocol_seed receives the per-seed
join slot handler (the "complete" handler). -/
inductive attach_handler where
  | none
  | handshake_handler
  | join_slot
deriving DecidableEq

/-- Protocol lifetime, from the comments in session_seed.cpp:
protocol_version runs "until complete", protocol_ping runs "until peer
stop event" (tied to the connection, not the session). -/
inductive lifetime where
  | until_complete
  | until_peer_stop
deriving DecidableEq

/-- The three points at which a seed pipeline can signal its per-seed
join slot. -/
inductive signal_source where
  | connect_fail
  | handshake_fail
  | exchange_done
deriving DecidableEq

/-- Atomic actions of one seed pipeline as performed by
session_seed::start_connect, handle_connected and handle_handshake. -/
inductive action where
  | connect_attempt (s : endpoint)
  | attach (s : endpoint) (p : proto) (h : attach_handler) (l : lifetime)
  | peer_start (s : endpoint)
  | host_insert (s : endpoint) (n : Nat)
  | join_signal (s : endpoint) (src : signal_source) (ec : code)
deriving DecidableEq

/-- The trace of one seed pipeline, translated from
session_seed::start_connect (the connect attempt),
session_seed::handle_connected (on error: complete(ec); otherwise attach
protocol_version with the handshake callback, then peer->start()), and
session_seed::handle_handshake (on error: complete(ec); otherwise attach
protocol_ping with no callback, then attach protocol_seed with the
per-seed complete handler).  The host_insert/join_signal tail of the
success branch is the protocol_seed stage, whose source is not under
src/; it is modelled from the spec: the address-exchange stage inserts
discovered addresses into the host set before invoking its completion
callback, and its completion (success or failure) is the one signal for
that seed's join slot. -/
def seed_pipeline (s : endpoint) (o : seed_outcome) : List action :=
  action.connect_attempt s ::
    (if o.connect_ec ≠ code.success then
      [action.join_signal s signal_source.connect_fail o.connect_ec]
    else
      action.attach s proto.version attach_handler.handshake_handler lifetime.until_complete ::
      action.peer_start s ::
        (if o.handshake_ec ≠ code.success then
          [action.join_signal s signal_source.handshake_fail o.handshake_ec]
        else
          [action.attach s proto.ping attach_handler.none lifetime.until_peer_stop,
           action.attach s proto.seed attach_handler.join_slot lifetime.until_complete,
           action.host_insert s o.inserts,
           action.join_signal s signal_source.exchange_done o.exchange_ec]))

/-- The join signals occurring in a trace, with their source point and
captured error code. -/
def join_signals (t : List action) : List (endpoint × signal_source × code) :=
  t.filterMap fun a =>
    match a with
    | action.join_signal s src ec => some (s, src, ec)
    | _ => none

/-- The point from which a pipeline with outcome o signals its join
slot: connect-failure, else handshake-failure, else address-exchange
completion. -/
def pipeline_signal_source (o : seed_outcome) : signal_source :=
  if o.connect_ec ≠ code.success then signal_source.connect_fail
  else if o.handshake_ec ≠ code.success then signal_source.handshake_fail
  else signal_source.exchange_done

/-- The code captured at the pipeline's unique join signal. -/
def pipeline_signal_ec (o : seed_outcome) : code :=
  if o.connect_ec ≠ code.success then o.connect_ec
  else if o.handshake_ec ≠ code.success then o.handshake_ec
  else o.exchange_ec

/-- The ping-protocol attachments of a trace, with their callback and
lifetime. -/
def ping_attaches (t : List action) : List (attach_handler × lifetime) :=
  t.filterMap fun a =>
    match a with
    | action.attach _ proto.ping h l => some (h, l)
    | _ => none

/-- The protocols of a trace that were handed the per-seed join slot
handler. -/
def join_slot_attaches (t : List action) : List proto :=
  t.filterMap fun a =>
    match a with
    | action.attach _ p attach_handler.join_slot _ => some p
    | _ => none

def is_peer_start (a : action) : Bool :=
  match a with
  | action.peer_start _ => true
  | _ => false

def is_attach (a : action) : Bool :=
  match a with
  | action.attach _ _ _ _ => true
  | _ => false

/-- C2: every seed pipeline emits exactly one join signal, from the one
point determined by where the pipeline first fails (connect-failure,
handshake-failure, or address-exchange completion). -/
theorem per_seed_join_exactly_once (s : endpoint) (o : seed_outcome) :
    join_signals (seed_pipeline s o) =
      [(s, pipeline_signal_source o, pipeline_signal_ec o)] := by
  unfold seed_pipeline pipeline_signal_source pipeline_signal_ec
  by_cases h1 : o.connect_ec = code.success
  · by_cases h2 : o.handshake_ec = code.success
    · simp [h1, h2, join_signals]
    · simp [h1, h2, join_signals]
  · simp [h1, join_signals]

/-- C9: the ping protocol attached after a successful handshake carries
no completion callback and has the until-peer-stop lifetime (tied to the
connection, outliving the session), and the only protocol ever handed
the per-seed join slot handler is the address-exchange (seed)
protocol. -/
theorem ping_never_signals_join (s : endpoint) (o : seed_outcome) :
    ping_attaches (seed_pipeline s o) =
      (if o.connect_ec = code.success ∧ o.handshake_ec = code.success then
        [(attach_handler.none, lifetime.until_peer_stop)]
      else []) ∧
    join_slot_attaches (seed_pipeline s o) =
      (if o.connect_ec = code.success ∧ o.handshake_ec = code.success then
        [proto.seed]
      else []) := by
  unfold seed_pipeline
  by_cases h1 : o.connect_ec = code.success
  · by_cases h2 : o.handshake_ec = code.success
    · simp [h1, h2, ping_attaches, join_slot_attaches]
    · simp [h1, h2, ping_attaches, join_slot_attaches]
  · simp [h1, ping_attaches, join_slot_attaches]

/-- C10: on connect success the version protocol is attached to the
peer channel strictly before peer->start() runs (first three actions
are connect, attach-version, peer-start); on connect failure the
pipeline is just the failed connect attempt and the join signal, so the
peer channel is never started and no protocol is ever attached. -/
theorem version_attached_before_peer_start (s : endpoint) (o : seed_outcome) :
    (seed_pipeline s o).take 3 =
      (if o.connect_ec = code.success then
        [action.connect_attempt s,
         action.attach s proto.version attach_handler.handshake_handler lifetime.until_complete,
         action.peer_start s]
      else
        [action.connect_attempt s,
         action.join_signal s signal_source.connect_fail o.connect_ec]) ∧
    (seed_pipeline s o).countP is_peer_start =
      (if o.connect_ec = code.success then 1 else 0) ∧
    (seed_pipeline s o).countP is_attach =
      (if o.connect_ec = code.success then
        (if o.handshake_ec = code.success then 3 else 1)
      else 0) := by
  unfold seed_pipeline
  by_cases h1 : o.connect_ec = code.success
  · by_cases h2 : o.handshake_ec = code.success
    · simp [h1, h2, is_peer_start, is_attach]
    · simp [h1, h2, is_peer_start, is_attach]
  · simp [h1, is_peer_start, is_attach]

/-! ## Inventory-request responder

getx_responder's implementation file is not under src/ (only the header
src/include/bitcoin/getx_responder.hpp, declaring receive_get_data,
pool_tx, chain_tx and send_block, is present), so its behaviour is
modelled from the spec. -/

/-- Modelled from the spec: the outcome of a transaction-pool or
blockchain lookup, which may find the content, miss it, or fail with a
query error (the getx_responder implementation is not under src/). -/
inductive query_result (α : Type) where
  | found (a : α)
  | missing
  | query_error
deriving DecidableEq

/-- Inventory vector kinds served by the responder. -/
inductive inv_kind where
  | transaction
  | block
deriving DecidableEq

/-- An inventory vector: a kind and a content hash (hash_digest modelled
as a natural number). -/
structure inventory_vector where
  kind : inv_kind
  hash : Nat
deriving DecidableEq

/-- A get_data packet: an ordered sequence of inventory vectors received
on one connection. -/
structure get_data_type where
  invs : List inventory_vector
deriving DecidableEq

/-- Modelled from the spec: the responder's read-only collaborators
(transaction pool lookup by hash, blockchain transaction store lookup by
hash, blockchain block lookup by hash); transactions and blocks are
modelled as opaque natural-number payloads. -/
structure responder_env where
  pool_lookup : Nat → query_result Nat
  chain_tx_lookup : Nat → query_result Nat
  chain_block_lookup : Nat → query_result Nat

/-- Outbound messages a responder could send for one vector.  The
not_found constructor exists so that "no negative reply is ever sent"
is expressible; the responder never produces it. -/
inductive out_msg where
  | send_tx (tx : Nat)
  | send_block (b : Nat)
  | not_found (iv : inventory_vector)
deriving DecidableEq

/-- Modelled from the spec: getx_responder's pool_tx/chain_tx chain for
one transaction vector.  Query the pool by hash; if found send the
transaction; on a pool miss or pool-query error (both treated as not
found) query the blockchain's transaction store; if found send; if
still not found drop silently. -/
def pool_tx (env : responder_env) (h : Nat) : List out_msg :=
  match env.pool_lookup h with
  | query_result.found tx => [out_msg.send_tx tx]
  | _ =>
    match env.chain_tx_lookup h with
    | query_result.found tx => [out_msg.send_tx tx]
    | _ => []

/-- Modelled from the spec: block vectors query the blockchain by hash;
if found the block is sent, otherwise the vector is dropped silently. -/
def send_block (env : responder_env) (h : Nat) : List out_msg :=
  match env.chain_block_lookup h with
  | query_result.found b => [out_msg.send_block b]
  | _ => []

/-- Modelled from the spec: dispatch of one inventory vector by kind. -/
def respond_vector (env : responder_env) (iv : inventory_vector) : List out_msg :=
  match iv.kind with
  | inv_kind.transaction => pool_tx env iv.hash
  | inv_kind.block => send_block env iv.hash

/-- Modelled from the spec: getx_responder::receive_get_data dispatches
resolution of each inventory vector of the packet independently; the
result is the per-vector list of outbound sends, one entry per vector in
packet order. -/
def receive_get_data (env : responder_env) (packet : get_data_type) :
    List (List out_msg) :=
  packet.invs.map (respond_vector env)

/-- Whether a vector actually resolves to known content (pool or chain
for transactions, chain for blocks). -/
def resolves (env : responder_env) (iv : inventory_vector) : Bool :=
  match iv.kind with
  | inv_kind.transaction =>
    (match env.pool_lookup iv.hash with
     | query_result.found _ => true
     | _ => false) ||
    (match env.chain_tx_lookup iv.hash with
     | query_result.found _ => true
     | _ => false)
  | inv_kind.block =>
    match env.chain_block_lookup iv.hash with
    | query_result.found _ => true
    | _ => false

/-- C6: for a transaction vector the pool is queried first and a pool
hit is sent as-is; on a pool miss or pool-query error the chain's
transaction store decides; if both miss or error the vector is dropped
with no sends at all, and in every case no negative not-found reply is
produced. -/
theorem get_data_tx_lookup_order (env : responder_env) (h : Nat) :
    (∀ tx, env.pool_lookup h = query_result.found tx →
      respond_vector env ⟨inv_kind.transaction, h⟩ = [out_msg.send_tx tx]) ∧
    ((env.pool_lookup h = query_result.missing ∨
      env.pool_lookup h = query_result.query_error) →
      ∀ tx, env.chain_tx_lookup h = query_result.found tx →
        respond_vector env ⟨inv_kind.transaction, h⟩ = [out_msg.send_tx tx]) ∧
    ((env.pool_lookup h = query_result.missing ∨
      env.pool_lookup h = query_result.query_error) →
      (env.chain_tx_lookup h = query_result.missing ∨
       env.chain_tx_lookup h = query_result.query_error) →
      respond_vector env ⟨inv_kind.transaction, h⟩ = []) ∧
    (∀ iv, out_msg.not_found iv ∉ respond_vector env ⟨inv_kind.transaction, h⟩) := by
  refine ⟨?_, ?_, ?_, ?_⟩
  · intro tx htx
    simp [respond_vector, pool_tx, htx]
  · intro hmiss tx htx
    rcases hmiss with hm | hm <;> simp [respond_vector, pool_tx, hm, htx]
  · intro hmiss hcmiss
    rcases hmiss with hm | hm <;> rcases hcmiss with hc | hc <;>
      simp [respond_vector, pool_tx, hm, hc]
  · intro iv
    simp only [respond_vector, pool_tx]
    cases env.pool_lookup h <;> cases env.chain_tx_lookup h <;> simp

/-- Witness for get_data_tx_lookup_order at a concrete environment:
pool hit on hash 1 yields exactly the pool transaction. -/
theorem get_data_tx_lookup_order_witness :
    respond_vector
      { pool_lookup := fun h => if h = 1 then query_result.found 10 else query_result.missing,
        chain_tx_lookup := fun h => if h = 2 then query_result.found 20 else query_result.query_error,
        chain_block_lookup := fun _ => query_result.missing }
      ⟨inv_kind.transaction, 1⟩ = [out_msg.send_tx 10] :=
  (get_data_tx_lookup_order
    { pool_lookup := fun h => if h = 1 then query_result.found 10 else query_result.missing,
      chain_tx_lookup := fun h => if h = 2 then query_result.found 20 else query_result.query_error,
      chain_block_lookup := fun _ => query_result.missing } 1).1 10 (by decide)

/-- Zipping a list with its own map pairs every element with its image. -/
lemma zip_map_self_snd {α β : Type} (f : α → β) :
    ∀ l : List α, ∀ p ∈ l.zip (l.map f), p.2 = f p.1 := by
  intro l
  induction l with
  | nil => intro p hp; simp at hp
  | cons a rest ih =>
    intro p hp
    simp only [List.map_cons, List.zip_cons_cons, List.mem_cons] at hp
    rcases hp with h | h
    · subst h; rfl
    · exact ih p h

/-- C7: one get_data packet yields exactly one send-list per vector (no
vector aborts the rest, query errors included, since every vector of the
packet is answered), each vector produces at most one outbound send, and
a vector produces a send exactly when it actually resolves; each
vector's sends are determined by that vector alone. -/
theorem one_send_per_vector_no_abort (env : responder_env) (packet : get_data_type) :
    (receive_get_data env packet).length = packet.invs.length ∧
    (∀ o ∈ receive_get_data env packet, o.length ≤ 1) ∧
    (∀ p ∈ packet.invs.zip (receive_get_data env packet),
      p.2 = respond_vector env p.1 ∧ (p.2 ≠ [] ↔ resolves env p.1 = true)) := by
  refine ⟨by simp [receive_get_data], ?_, ?_⟩
  · intro o ho
    simp only [receive_get_data, List.mem_map] at ho
    obtain ⟨iv, _, rfl⟩ := ho
    cases hk : iv.kind <;>
      simp only [respond_vector, pool_tx, send_block, hk] <;>
      cases hpool : env.pool_lookup iv.hash <;>
      cases hct : env.chain_tx_lookup iv.hash <;>
      cases hcb : env.chain_block_lookup iv.hash <;> simp
  · intro p hp
    have hsnd : p.2 = respond_vector env p.1 :=
      zip_map_self_snd (respond_vector env) packet.invs p hp
    refine ⟨hsnd, ?_⟩
    rw [hsnd]
    cases hk : p.1.kind <;>
      simp only [respond_vector, pool_tx, send_block, resolves, hk] <;>
      cases hpool : env.pool_lookup p.1.hash <;>
      cases hct : env.chain_tx_lookup p.1.hash <;>
      cases hcb : env.chain_block_lookup p.1.hash <;> simp

/-- Witness for one_send_per_vector_no_abort on the spec's own example:
three transaction vectors, one pool-only, one chain-only, one absent;
the packet yields one entry per vector, the absent vector sends nothing
and the chain-only vector resolves. -/
theorem one_send_per_vector_no_abort_witness :
    (receive_get_data
      { pool_lookup := fun h => if h = 1 then query_result.found 10 else query_result.missing,
        chain_tx_lookup := fun h => if h = 2 then query_result.found 20 else query_result.query_error,
        chain_block_lookup := fun _ => query_result.missing }
      ⟨[⟨inv_kind.transaction, 1⟩, ⟨inv_kind.transaction, 2⟩,
        ⟨inv_kind.transaction, 3⟩]⟩).length = 3 ∧
    ([] : List out_msg).length ≤ 1 ∧
    (([out_msg.send_tx 20] : List out_msg) ≠ [] ↔
      resolves
        { pool_lookup := fun h => if h = 1 then query_result.found 10 else query_result.missing,
          chain_tx_lookup := fun h => if h = 2 then query_result.found 20 else query_result.query_error,
          chain_block_lookup := fun _ => query_result.missing }
        ⟨inv_kind.transaction, 2⟩ = true) := by
  have h := one_send_per_vector_no_abort
    { pool_lookup := fun h => if h = 1 then query_result.found 10 else query_result.missing,
      chain_tx_lookup := fun h => if h = 2 then query_result.found 20 else query_result.query_error,
      chain_block_lookup := fun _ => query_result.missing }
    ⟨[⟨inv_kind.transaction, 1⟩, ⟨inv_kind.transaction, 2⟩,
      ⟨inv_kind.transaction, 3⟩]⟩
  exact ⟨h.1, h.2.1 [] (by decide), (h.2.2 (⟨inv_kind.transaction, 2⟩, [out_msg.send_tx 20]) (by decide)).2⟩

/-! ## Session state machine

session_seed::start builds one synchronizer over all seeds (the
synchronizer utility itself is not under src/, so its contract is
modelled from the spec: it counts signals and invokes its handler
exactly once when the count reaches the expected number, on whichever
context delivers the final signal).  The state below folds that counter,
the host-set size, and the completion invocations over an interleaved
trace. -/

/-- The session-visible state during one bootstrap attempt: the host
set's current size, the number of per-seed join signals received by the
top-level synchronizer, and the completion invocations delivered to the
caller so far (in order). -/
structure sess_state where
  hosts_size : Nat
  signals : Nat
  completions : List code
deriving DecidableEq

/-- One step of the session over an atomic action.  A host_insert grows
the host set; a join_signal increments the synchronizer count and, when
the count reaches the number of seeds, fires
session_seed::handle_stopped, which compares the current host-set size
with the size recorded at start and invokes the caller's completion
with success on strict growth and operation_failed otherwise; all other
actions do not touch session state. -/
def step_action (size_before n_seeds : Nat) (s : sess_state) (a : action) :
    sess_state :=
  match a with
  | action.host_insert _ k => { s with hosts_size := s.hosts_size + k }
  | action.join_signal _ _ _ =>
    if s.signals + 1 = n_seeds then
      { s with
          signals := s.signals + 1,
          completions := s.completions ++
            [if size_before < s.hosts_size then code.success
             else code.operation_failed] }
    else { s with signals := s.signals + 1 }
  | _ => s

/-- Folding a trace of actions through the session. -/
def run_trace (size_before n_seeds : Nat) (t : List action) (s : sess_state) :
    sess_state :=
  t.foldl (step_action size_before n_seeds) s

/-- The session state right after start's precondition check: the host
set holds size_before addresses, no signals, no completion yet. -/
def init_state (size_before : Nat) : sess_state :=
  { hosts_size := size_before, signals := 0, completions := [] }

/-- The synchronous outcome of session_seed::start: either the
completion handler was invoked inline (sync_complete, with no
connection attempt made), or one connect was initiated per seed. -/
inductive start_outcome where
  | sync_complete (ec : code)
  | async_launch (size_before : Nat) (connects : List endpoint)
deriving DecidableEq

/-- session_seed::start, synchronous part: if the seed list is empty or
the host-set capacity is zero, invoke complete(operation_failed) and
return; otherwise record hosts_.size() and start one connect per
seed. -/
def session_seed_start (seeds : List endpoint) (capacity size_before : Nat) :
    start_outcome :=
  if seeds.isEmpty || capacity == 0 then
    start_outcome.sync_complete code.operation_failed
  else
    start_outcome.async_launch size_before seeds

/-- The connection attempts initiated synchronously by start. -/
def launched_connects : start_outcome → List endpoint
  | start_outcome.sync_complete _ => []
  | start_outcome.async_launch _ cs => cs

/-- The full list of completion invocations delivered to the caller of
start for one bootstrap attempt, given the host-set capacity, the
host-set size at start, and an interleaved trace t of the per-seed
pipelines. -/
def session_completions (seeds : List endpoint) (capacity size_before : Nat)
    (t : List action) : List code :=
  match session_seed_start seeds capacity size_before with
  | start_outcome.sync_complete ec => [ec]
  | start_outcome.async_launch b _ =>
    (run_trace b seeds.length t (init_state b)).completions

/-! ## Interleavings

The seed pipelines run concurrently; a bootstrap run is an arbitrary
interleaving of the per-seed traces, preserving each pipeline's own
order. -/

/-- t is an interleaving of the lists ls: t is built by repeatedly
consuming the head of any one of the lists. -/
inductive shuffle : List (List action) → List action → Prop where
  | nil {ls : List (List action)} :
      (∀ l ∈ ls, l = []) → shuffle ls []
  | take {ls : List (List action)} {i : Nat} {x : action} {xs t : List action} :
      ls.get? i = some (x :: xs) → shuffle (ls.set i xs) t →
      shuffle ls (x :: t)

/-- Whether an action is a per-seed join signal. -/
def is_join (a : action) : Bool :=
  match a with
  | action.join_signal _ _ _ => true
  | _ => false

/-- Signal weight of an action: one for a join signal, zero otherwise. -/
def sigv (a : action) : Nat :=
  if is_join a then 1 else 0

/-- Insert weight of an action: the growth of a host_insert, zero
otherwise. -/
def insv (a : action) : Nat :=
  match a with
  | action.host_insert _ k => k
  | _ => 0

/-- Total weight of a trace. -/
def vsum (v : action → Nat) (t : List action) : Nat :=
  (t.map v).sum

/-- Total weight across a list of traces. -/
def lsum (v : action → Nat) (ls : List (List action)) : Nat :=
  (ls.map (vsum v)).sum

lemma vsum_nil (v : action → Nat) : vsum v [] = 0 := rfl

lemma vsum_cons (v : action → Nat) (a : action) (t : List action) :
    vsum v (a :: t) = v a + vsum v t := by
  simp [vsum]

lemma lsum_eq_zero_of_all_nil (v : action → Nat) {ls : List (List action)}
    (h : ∀ l ∈ ls, l = []) : lsum v ls = 0 := by
  induction ls with
  | nil => rfl
  | cons l rest ih =>
    have hl : l = [] := h l (by simp)
    have hrest : ∀ l ∈ rest, l = [] := fun l hm => h l (by simp [hm])
    simp [lsum, hl, vsum] at ih ⊢
    exact ih hrest

/-- Replacing the list at a valid index trades its weight for the
replacement's weight. -/
lemma lsum_set (v : action → Nat) :
    ∀ (ls : List (List action)) (i : Nat) (l xs : List action),
      ls.get? i = some l →
      lsum v ls + vsum v xs = lsum v (ls.set i xs) + vsum v l := by
  intro ls
  induction ls with
  | nil => intro i l xs h; simp at h
  | cons hd rest ih =>
    intro i l xs h
    cases i with
    | zero =>
      simp only [List.get?] at h
      cases h
      simp [lsum, List.set]
      omega
    | succ j =>
      simp only [List.get?] at h
      have := ih j l xs h
      simp [lsum, List.set] at this ⊢
      omega

/-- An interleaving carries exactly the total weight of its sources. -/
lemma shuffle_vsum (v : action → Nat) {ls : List (List action)}
    {t : List action} (h : shuffle ls t) : vsum v t = lsum v ls := by
  induction h with
  | nil hall => simp [vsum_nil, lsum_eq_zero_of_all_nil v hall]
  | take hget hsh ih =>
    rename_i ls i x xs t
    have hset := lsum_set v ls i (x :: xs) xs hget
    rw [vsum_cons] at hset
    rw [vsum_cons, ih]
    omega

/-- An interleaving of exhausted pipelines is empty. -/
lemma shuffle_all_nil {ls : List (List action)} {t : List action}
    (h : shuffle ls t) (he : ∀ l ∈ ls, l = []) : t = [] := by
  cases h with
  | nil _ => rfl
  | take hget hsh =>
    rename_i i x xs t'
    have hmem : (x :: xs) ∈ ls := List.get?_mem hget
    exact absurd (he _ hmem) (by simp)

/-! ## Pipeline shape

Every seed pipeline trace ends with its unique join signal; this is the
shape the exactly-once argument rests on. -/

/-- A trace is a well-formed pipeline (suffix) when its last action is
a join signal and no earlier action is one; the empty trace is a fully
consumed pipeline. -/
def wf_pipe : List action → Bool
  | [] => true
  | [a] => is_join a
  | a :: rest => !is_join a && wf_pipe rest

lemma wf_pipe_tail {x : action} {xs : List action}
    (h : wf_pipe (x :: xs) = true) : wf_pipe xs = true := by
  cases xs with
  | nil => rfl
  | cons y ys =>
    simp only [wf_pipe, Bool.and_eq_true] at h
    exact h.2

lemma wf_pipe_join_head {x : action} {xs : List action}
    (h : wf_pipe (x :: xs) = true) (hj : is_join x = true) : xs = [] := by
  cases xs with
  | nil => rfl
  | cons y ys => simp [wf_pipe, hj] at h

lemma wf_pipe_sig_zero :
    ∀ {l : List action}, wf_pipe l = true → vsum sigv l = 0 → l = [] := by
  intro l
  induction l with
  | nil => intro _ _; rfl
  | cons x xs ih =>
    intro hwf h0
    rw [vsum_cons] at h0
    cases xs with
    | nil =>
      simp only [wf_pipe] at hwf
      simp [sigv, hwf] at h0
    | cons y ys =>
      simp only [wf_pipe, Bool.and_eq_true] at hwf
      exact absurd (ih hwf.2 (by omega)) (by simp)

lemma insv_of_join {a : action} (hj : is_join a = true) : insv a = 0 := by
  cases a <;> first | rfl | simp [is_join] at hj

/-! ## Step lemmas -/

lemma step_action_not_join (size_before n_seeds : Nat) (s : sess_state)
    {a : action} (h : is_join a = false) :
    step_action size_before n_seeds s a =
      { s with hosts_size := s.hosts_size + insv a } := by
  cases a <;> simp [is_join] at h ⊢ <;> simp [step_action, insv]

lemma step_action_join (size_before n_seeds : Nat) (s : sess_state)
    {a : action} (h : is_join a = true) :
    step_action size_before n_seeds s a =
      (if s.signals + 1 = n_seeds then
        { s with
            signals := s.signals + 1,
            completions := s.completions ++
              [if size_before < s.hosts_size then code.success
               else code.operation_failed] }
      else { s with signals := s.signals + 1 }) := by
  cases a with
  | join_signal s2 src ec => simp [step_action]
  | connect_attempt s2 => simp [is_join] at h
  | attach s2 p hh l => simp [is_join] at h
  | peer_start s2 => simp [is_join] at h
  | host_insert s2 n => simp [is_join] at h

lemma run_trace_cons (size_before n_seeds : Nat) (a : action)
    (t : List action) (s : sess_state) :
    run_trace size_before n_seeds (a :: t) s =
      run_trace size_before n_seeds t (step_action size_before n_seeds s a) :=
  rfl

lemma run_trace_nil (size_before n_seeds : Nat) (s : sess_state) :
    run_trace size_before n_seeds [] s = s :=
  rfl

/-! ## The exactly-once run characterization -/

/-- Master lemma: folding any interleaving of well-formed pipelines
from a state with no completion yet and a synchronizer still waiting
for all remaining signals ends with all signals counted, the host set
grown by exactly the pipelines' inserts, and exactly one completion,
whose code is decided by comparing the grown host-set size with the
size recorded at start. -/
lemma run_trace_shuffle (size_before n_seeds : Nat)
    {ls : List (List action)} {t : List action} (hsh : shuffle ls t) :
    ∀ s : sess_state,
      (∀ l ∈ ls, wf_pipe l = true) →
      s.completions = [] →
      s.signals + lsum sigv ls = n_seeds →
      1 ≤ lsum sigv ls →
      run_trace size_before n_seeds t s =
        { hosts_size := s.hosts_size + lsum insv ls,
          signals := n_seeds,
          completions :=
            [if size_before < s.hosts_size + lsum insv ls then code.success
             else code.operation_failed] } := by
  induction hsh with
  | nil hall =>
    intro s _ _ _ hge
    rw [lsum_eq_zero_of_all_nil sigv hall] at hge
    omega
  | take hget hsh2 ih =>
    rename_i ls i x xs t
    intro s hwf hc hsig hge
    have hmem : (x :: xs) ∈ ls := List.get?_mem hget
    have hwfx : wf_pipe (x :: xs) = true := hwf _ hmem
    have hwf2 : ∀ l ∈ ls.set i xs, wf_pipe l = true := by
      intro l hl
      rcases List.mem_or_eq_of_mem_set hl with h | h
      · exact hwf _ h
      · exact h ▸ wf_pipe_tail hwfx
    have hsigset := lsum_set sigv ls i (x :: xs) xs hget
    rw [vsum_cons] at hsigset
    have hinsset := lsum_set insv ls i (x :: xs) xs hget
    rw [vsum_cons] at hinsset
    rw [run_trace_cons]
    by_cases hj : is_join x = true
    · have hxs : xs = [] := wf_pipe_join_head hwfx hj
      subst hxs
      have hsigx : sigv x = 1 := by simp [sigv, hj]
      have hinsx : insv x = 0 := insv_of_join hj
      by_cases hlast : lsum sigv (ls.set i []) = 0
      · have hempty : ∀ l ∈ ls.set i ([] : List action), l = [] := by
          intro l hl
          refine wf_pipe_sig_zero (hwf2 l hl) ?_
          have hle : vsum sigv l ≤ lsum sigv (ls.set i []) := by
            have : vsum sigv l ≤ ((ls.set i ([] : List action)).map (vsum sigv)).sum :=
              List.le_sum_of_mem (List.mem_map_of_mem (vsum sigv) hl)
            exact this
          omega
        have ht : t = [] := shuffle_all_nil hsh2 hempty
        subst ht
        have hfire : s.signals + 1 = n_seeds := by
          rw [vsum_nil] at hsigset
          omega
        rw [step_action_join size_before n_seeds s hj, if_pos hfire,
          run_trace_nil]
        have hins0 : lsum insv ls = 0 := by
          have : lsum insv (ls.set i ([] : List action)) = 0 :=
            lsum_eq_zero_of_all_nil insv hempty
          rw [vsum_nil] at hinsset
          omega
        rw [hc, hins0]
        simp [hfire]
      · have hz : vsum sigv ([] : List action) = 0 := rfl
        have hzi : vsum insv ([] : List action) = 0 := rfl
        have hnofire : s.signals + 1 ≠ n_seeds := by omega
        rw [step_action_join size_before n_seeds s hj, if_neg hnofire, hc]
        have h1 : s.signals + 1 + lsum sigv (ls.set i []) = n_seeds := by
          omega
        have h2 : 1 ≤ lsum sigv (ls.set i []) := by omega
        rw [ih ⟨s.hosts_size, s.signals + 1, []⟩ hwf2 rfl h1 h2]
        have heq : lsum insv (ls.set i []) = lsum insv ls := by omega
        simp [heq]
    · have hjf : is_join x = false := by
        cases hx : is_join x
        · rfl
        · exact absurd hx hj
      have hsigx : sigv x = 0 := by simp [sigv, hjf]
      rw [step_action_not_join size_before n_seeds s hjf, hc]
      have h1 : s.signals + lsum sigv (ls.set i xs) = n_seeds := by omega
      have h2 : 1 ≤ lsum sigv (ls.set i xs) := by omega
      rw [ih ⟨s.hosts_size + insv x, s.signals, []⟩ hwf2 rfl h1 h2]
      have heq : s.hosts_size + insv x + lsum insv (ls.set i xs) =
          s.hosts_size + lsum insv ls := by omega
      simp only [heq]

/-! ## Per-pipeline weights -/

lemma wf_pipe_seed_pipeline (s : endpoint) (o : seed_outcome) :
    wf_pipe (seed_pipeline s o) = true := by
  unfold seed_pipeline
  by_cases h1 : o.connect_ec = code.success
  · by_cases h2 : o.handshake_ec = code.success
    · simp [h1, h2, wf_pipe, is_join]
    · simp [h1, h2, wf_pipe, is_join]
  · simp [h1, wf_pipe, is_join]

lemma sig_seed_pipeline (s : endpoint) (o : seed_outcome) :
    vsum sigv (seed_pipeline s o) = 1 := by
  unfold seed_pipeline
  by_cases h1 : o.connect_ec = code.success
  · by_cases h2 : o.handshake_ec = code.success
    · simp [h1, h2, vsum, sigv, is_join]
    · simp [h1, h2, vsum, sigv, is_join]
  · simp [h1, vsum, sigv, is_join]

/-- The net host-set growth one pipeline produces: its address-exchange
inserts when both connect and handshake succeed, nothing otherwise. -/
def pipeline_inserts (o : seed_outcome) : Nat :=
  if o.connect_ec = code.success ∧ o.handshake_ec = code.success then
    o.inserts
  else 0

lemma ins_seed_pipeline (s : endpoint) (o : seed_outcome) :
    vsum insv (seed_pipeline s o) = pipeline_inserts o := by
  unfold seed_pipeline pipeline_inserts
  by_cases h1 : o.connect_ec = code.success
  · by_cases h2 : o.handshake_ec = code.success
    · simp [h1, h2, vsum, insv]
    · simp [h1, h2, vsum, insv]
  · simp [h1, vsum, insv]

/-- The per-seed pipeline traces launched by start for one attempt. -/
def pipelines (seeds : List endpoint) (outcomes : endpoint → seed_outcome) :
    List (List action) :=
  seeds.map fun e => seed_pipeline e (outcomes e)

/-- Total host-set growth across all seeds of one attempt. -/
def total_inserts (seeds : List endpoint)
    (outcomes : endpoint → seed_outcome) : Nat :=
  (seeds.map fun e => pipeline_inserts (outcomes e)).sum

lemma lsum_sigv_pipelines (seeds : List endpoint)
    (outcomes : endpoint → seed_outcome) :
    lsum sigv (pipelines seeds outcomes) = seeds.length := by
  induction seeds with
  | nil => rfl
  | cons e rest ih =>
    simp only [pipelines, lsum, List.map_cons, List.map_map] at ih ⊢
    rw [List.sum_cons, sig_seed_pipeline, ih, List.length_cons]
    omega

lemma lsum_insv_pipelines (seeds : List endpoint)
    (outcomes : endpoint → seed_outcome) :
    lsum insv (pipelines seeds outcomes) = total_inserts seeds outcomes := by
  induction seeds with
  | nil => rfl
  | cons e rest ih =>
    simp only [pipelines, lsum, total_inserts, List.map_cons, List.map_map]
      at ih ⊢
    rw [List.sum_cons, List.sum_cons, ins_seed_pipeline, ih]

lemma wf_pipelines (seeds : List endpoint)
    (outcomes : endpoint → seed_outcome) :
    ∀ l ∈ pipelines seeds outcomes, wf_pipe l = true := by
  intro l hl
  simp only [pipelines, List.mem_map] at hl
  obtain ⟨e, _, rfl⟩ := hl
  exact wf_pipe_seed_pipeline e (outcomes e)

/-- Run characterization: for a nonempty seed list, any interleaving of
the seed pipelines drives the session from its initial state to the
fully signalled state with exactly one completion, decided by host-set
growth. -/
lemma session_run_characterization (size_before : Nat)
    {seeds : List endpoint} {outcomes : endpoint → seed_outcome}
    {t : List action} (hne : seeds ≠ [])
    (hsh : shuffle (pipelines seeds outcomes) t) :
    run_trace size_before seeds.length t (init_state size_before) =
      { hosts_size := size_before + total_inserts seeds outcomes,
        signals := seeds.length,
        completions :=
          [if size_before < size_before + total_inserts seeds outcomes then
            code.success
          else code.operation_failed] } := by
  have hlen : 1 ≤ seeds.length := by
    cases seeds with
    | nil => exact absurd rfl hne
    | cons a l => simp
  have h := run_trace_shuffle size_before seeds.length hsh
    (init_state size_before) (wf_pipelines seeds outcomes)
    rfl
    (by rw [lsum_sigv_pipelines]; simp [init_state])
    (by rw [lsum_sigv_pipelines]; exact hlen)
  rw [h, lsum_insv_pipelines]
  rfl

/-- Prepending an exhausted pipeline preserves interleavings. -/
lemma shuffle_cons_nil {ls : List (List action)} {t : List action}
    (h : shuffle ls t) : shuffle ([] :: ls) t := by
  induction h with
  | nil hall =>
    refine shuffle.nil ?_
    intro l hl
    rcases List.mem_cons.mp hl with h | h
    · exact h
    · exact hall l h
  | take hget hsh ih =>
    rename_i ls i x xs t
    exact shuffle.take (show ([] :: ls).get? (i + 1) = some (x :: xs) from hget) ih

/-- Running one pipeline to completion and then the rest is one
particular interleaving. -/
lemma shuffle_cons_append (l1 : List action) {ls : List (List action)}
    {t : List action} (h : shuffle ls t) : shuffle (l1 :: ls) (l1 ++ t) := by
  induction l1 with
  | nil => simpa using shuffle_cons_nil h
  | cons x xs ih =>
    exact shuffle.take (i := 0) rfl ih

/-- The fully sequential interleaving: each pipeline runs to completion
before the next starts. -/
lemma shuffle_seq :
    ∀ ls : List (List action), shuffle ls (ls.foldr (· ++ ·) []) := by
  intro ls
  induction ls with
  | nil => exact shuffle.nil (by intro l hl; simp at hl)
  | cons l rest ih => exact shuffle_cons_append l ih

/-- C1: for any nonempty seed list and any interleaving of the seed
pipelines, whatever each pipeline's outcome, the caller's completion is
invoked exactly once for the bootstrap attempt (also when the capacity
precondition fails, in which case the one invocation is synchronous). -/
theorem completion_fires_exactly_once (seeds : List endpoint)
    (capacity size_before : Nat) (outcomes : endpoint → seed_outcome)
    (t : List action) (hne : seeds ≠ [])
    (hsh : shuffle (pipelines seeds outcomes) t) :
    (session_completions seeds capacity size_before t).length = 1 := by
  have hse : seeds.isEmpty = false := by
    cases seeds with
    | nil => exact absurd rfl hne
    | cons a l => rfl
  unfold session_completions session_seed_start
  by_cases hcap : capacity = 0
  · simp [hse, hcap]
  · have hcond : (seeds.isEmpty || capacity == 0) = false := by
      simp [hse, hcap]
    rw [hcond]
    simp only [Bool.false_eq_true, if_false]
    rw [session_run_characterization size_before hne hsh]
    rfl

/-- Witness for completion_fires_exactly_once: two seeds, one fully
successful, one failing at connect, interleaved sequentially. -/
theorem completion_fires_exactly_once_witness :
    (session_completions [⟨ "a", 1⟩, ⟨ "b", 2⟩] 100 5
      ((pipelines [⟨ "a", 1⟩, ⟨ "b", 2⟩] fun e =>
        if e.port = 1 then ⟨code.success, code.success, code.success, 2⟩
        else ⟨code.other 7, code.success, code.success, 0⟩).foldr
          (· ++ ·) [])).length = 1 := by
  refine completion_fires_exactly_once [⟨ "a", 1⟩, ⟨ "b", 2⟩] 100 5
    (fun e => if e.port = 1 then ⟨code.success, code.success, code.success, 2⟩
      else ⟨code.other 7, code.success, code.success, 0⟩) _
    (by simp) ?_
  exact shuffle_seq _

/-- C3: when the top-level join fires, the completion delivered to the
caller is success exactly when the host-set size at that moment is
strictly greater than the size recorded at start, and operation_failed
otherwise. -/
theorem growth_comparison_decides_result (seeds : List endpoint)
    (size_before : Nat) (outcomes : endpoint → seed_outcome)
    (t : List action) (hne : seeds ≠ [])
    (hsh : shuffle (pipelines seeds outcomes) t) :
    (run_trace size_before seeds.length t (init_state size_before)).completions =
      [if size_before <
          (run_trace size_before seeds.length t
            (init_state size_before)).hosts_size then
        code.success
      else code.operation_failed] := by
  rw [session_run_characterization size_before hne hsh]

/-- Witness for growth_comparison_decides_result: one successful seed
inserting two addresses yields the success completion. -/
theorem growth_comparison_decides_result_witness :
    (run_trace 5 1
      (seed_pipeline ⟨ "a", 1⟩ ⟨code.success, code.success, code.success, 2⟩)
      (init_state 5)).completions =
      [if 5 < (run_trace 5 1
          (seed_pipeline ⟨ "a", 1⟩ ⟨code.success, code.success, code.success, 2⟩)
          (init_state 5)).hosts_size then
        code.success
      else code.operation_failed] := by
  have h := growth_comparison_decides_result [⟨ "a", 1⟩] 5
    (fun _ => ⟨code.success, code.success, code.success, 2⟩)
    (seed_pipeline ⟨ "a", 1⟩ ⟨code.success, code.success, code.success, 2⟩)
    (by simp) (shuffle_cons_append _ (shuffle.nil (by intro l hl; simp at hl)))
  simpa using h

/-- C4: an empty seed list or a zero host-set capacity makes start
invoke the completion synchronously with operation_failed, launching no
asynchronous work and zero connection attempts. -/
theorem empty_or_zero_capacity_fails_synchronously (seeds : List endpoint)
    (capacity size_before : Nat) (h : seeds = [] ∨ capacity = 0) :
    session_seed_start seeds capacity size_before =
      start_outcome.sync_complete code.operation_failed ∧
    launched_connects (session_seed_start seeds capacity size_before) = [] := by
  have hcond : (seeds.isEmpty || capacity == 0) = true := by
    rcases h with h | h
    · subst h; rfl
    · subst h; simp
  unfold session_seed_start
  rw [hcond]
  exact ⟨rfl, rfl⟩

/-- Witness for empty_or_zero_capacity_fails_synchronously on the empty
seed list. -/
theorem empty_or_zero_capacity_fails_synchronously_witness :
    session_seed_start [] 5 3 =
      start_outcome.sync_complete code.operation_failed ∧
    launched_connects (session_seed_start [] 5 3) = [] :=
  empty_or_zero_capacity_fails_synchronously [] 5 3 (Or.inl rfl)

/-- C8: whatever the per-seed connect and handshake error codes are,
the only codes ever delivered to the caller of start are success and
operation_failed; the single delivered completion is one of the two. -/
theorem only_aggregate_result_surfaced (seeds : List endpoint)
    (capacity size_before : Nat) (outcomes : endpoint → seed_outcome)
    (t : List action) (hne : seeds ≠ [])
    (hsh : shuffle (pipelines seeds outcomes) t) :
    session_completions seeds capacity size_before t = [code.success] ∨
    session_completions seeds capacity size_before t =
      [code.operation_failed] := by
  have hse : seeds.isEmpty = false := by
    cases seeds with
    | nil => exact absurd rfl hne
    | cons a l => rfl
  unfold session_completions session_seed_start
  by_cases hcap : capacity = 0
  · right
    simp [hse, hcap]
  · have hcond : (seeds.isEmpty || capacity == 0) = false := by
      simp [hse, hcap]
    rw [hcond]
    simp only [Bool.false_eq_true, if_false]
    rw [session_run_characterization size_before hne hsh]
    by_cases hgt : size_before < size_before + total_inserts seeds outcomes
    · left
      simp [hgt]
    · right
      simp [hgt]

/-- Witness for only_aggregate_result_surfaced: two seeds failing with
distinct transport codes still surface one of the two aggregate
codes. -/
theorem only_aggregate_result_surfaced_witness :
    session_completions [⟨ "a", 1⟩, ⟨ "b", 2⟩] 100 5
      ((pipelines [⟨ "a", 1⟩, ⟨ "b", 2⟩] fun e =>
        if e.port = 1 then ⟨code.other 3, code.success, code.success, 0⟩
        else ⟨code.success, code.other 4, code.success, 0⟩).foldr
          (· ++ ·) []) = [code.success] ∨
    session_completions [⟨ "a", 1⟩, ⟨ "b", 2⟩] 100 5
      ((pipelines [⟨ "a", 1⟩, ⟨ "b", 2⟩] fun e =>
        if e.port = 1 then ⟨code.other 3, code.success, code.success, 0⟩
        else ⟨code.success, code.other 4, code.success, 0⟩).foldr
          (· ++ ·) []) = [code.operation_failed] :=
  only_aggregate_result_surfaced [⟨ "a", 1⟩, ⟨ "b", 2⟩] 100 5
    (fun e => if e.port = 1 then ⟨code.other 3, code.success, code.success, 0⟩
      else ⟨code.success, code.other 4, code.success, 0⟩) _
    (by simp) (shuffle_seq _)

/-! ## Prefix lemmas for the temporal claim -/

lemma vsum_append (v : action → Nat) (p q : List action) :
    vsum v (p ++ q) = vsum v p + vsum v q := by
  simp [vsum]

lemma step_action_signals (size_before n_seeds : Nat) (s : sess_state)
    (a : action) :
    (step_action size_before n_seeds s a).signals = s.signals + sigv a := by
  by_cases hj : is_join a = true
  · rw [step_action_join size_before n_seeds s hj]
    split <;> simp [sigv, hj]
  · have hjf : is_join a = false := by
      cases hx : is_join a
      · rfl
      · exact absurd hx hj
    rw [step_action_not_join size_before n_seeds s hjf]
    simp [sigv, hjf]

lemma step_action_hosts (size_before n_seeds : Nat) (s : sess_state)
    (a : action) :
    (step_action size_before n_seeds s a).hosts_size =
      s.hosts_size + insv a := by
  by_cases hj : is_join a = true
  · rw [step_action_join size_before n_seeds s hj, insv_of_join hj]
    split <;> simp
  · have hjf : is_join a = false := by
      cases hx : is_join a
      · rfl
      · exact absurd hx hj
    rw [step_action_not_join size_before n_seeds s hjf]

lemma run_trace_signals (size_before n_seeds : Nat) :
    ∀ (t : List action) (s : sess_state),
      (run_trace size_before n_seeds t s).signals =
        s.signals + vsum sigv t := by
  intro t
  induction t with
  | nil => intro s; simp [run_trace_nil, vsum_nil]
  | cons a t ih =>
    intro s
    rw [run_trace_cons, ih, step_action_signals, vsum_cons]
    omega

lemma run_trace_hosts (size_before n_seeds : Nat) :
    ∀ (t : List action) (s : sess_state),
      (run_trace size_before n_seeds t s).hosts_size =
        s.hosts_size + vsum insv t := by
  intro t
  induction t with
  | nil => intro s; simp [run_trace_nil, vsum_nil]
  | cons a t ih =>
    intro s
    rw [run_trace_cons, ih, step_action_hosts, vsum_cons]
    omega

/-- The completion handler cannot fire while the synchronizer is still
short of its expected count. -/
lemma run_trace_no_fire (size_before n_seeds : Nat) :
    ∀ (t : List action) (s : sess_state),
      s.completions = [] → s.signals + vsum sigv t < n_seeds →
      (run_trace size_before n_seeds t s).completions = [] := by
  intro t
  induction t with
  | nil => intro s hc _; exact hc
  | cons a t ih =>
    intro s hc hlt
    rw [vsum_cons] at hlt
    rw [run_trace_cons]
    by_cases hj : is_join a = true
    · have hsig : sigv a = 1 := by simp [sigv, hj]
      have hnf : s.signals + 1 ≠ n_seeds := by omega
      rw [step_action_join size_before n_seeds s hj, if_neg hnf]
      refine ih { s with signals := s.signals + 1 } hc ?_
      show s.signals + 1 + vsum sigv t < n_seeds
      omega
    · have hjf : is_join a = false := by
        cases hx : is_join a
        · rfl
        · exact absurd hx hj
      have hsig : sigv a = 0 := by simp [sigv, hjf]
      rw [step_action_not_join size_before n_seeds s hjf]
      refine ih { s with hosts_size := s.hosts_size + insv a } hc ?_
      show s.signals + vsum sigv t < n_seeds
      omega

/-- An interleaving of well-formed pipelines with no join signal at all
is empty: every pipeline ends in its signal. -/
lemma shuffle_sig_zero_nil {ls : List (List action)} {t : List action}
    (hsh : shuffle ls t) (hwf : ∀ l ∈ ls, wf_pipe l = true)
    (h0 : vsum sigv t = 0) : t = [] := by
  have hv := shuffle_vsum sigv hsh
  refine shuffle_all_nil hsh ?_
  intro l hl
  refine wf_pipe_sig_zero (hwf l hl) ?_
  have hle : vsum sigv l ≤ lsum sigv ls :=
    List.le_sum_of_mem (List.mem_map_of_mem (vsum sigv) hl)
  omega

/-- In any interleaving of well-formed pipelines, a suffix holding no
join signal is empty: all inserts happen before the last signal. -/
lemma shuffle_suffix_nil :
    ∀ {ls : List (List action)} {t : List action}, shuffle ls t →
      (∀ l ∈ ls, wf_pipe l = true) →
      ∀ p q : List action, t = p ++ q → vsum sigv q = 0 → q = [] := by
  intro ls t hsh
  induction hsh with
  | nil hall =>
    intro _ p q hpq _
    exact (List.append_eq_nil.mp hpq.symm).2
  | take hget hsh2 ih =>
    rename_i ls i x xs t
    intro hwf p q hpq h0
    cases p with
    | nil =>
      simp only [List.nil_append] at hpq
      subst hpq
      exact shuffle_sig_zero_nil (shuffle.take hget hsh2) hwf h0
    | cons y p2 =>
      have hx : x = y ∧ t = p2 ++ q := by
        constructor
        · exact (List.cons.injEq x t y (p2 ++ q) ▸ hpq).1
        · exact (List.cons.injEq x t y (p2 ++ q) ▸ hpq).2
      have hmem : (x :: xs) ∈ ls := List.get?_mem hget
      have hwfx : wf_pipe (x :: xs) = true := hwf _ hmem
      have hwf2 : ∀ l ∈ ls.set i xs, wf_pipe l = true := by
        intro l hl
        rcases List.mem_or_eq_of_mem_set hl with h | h
        · exact hwf _ h
        · exact h ▸ wf_pipe_tail hwfx
      exact ih hwf2 p2 q hx.2 h0

/-- C5: the host-set growth comparison runs only once all per-seed
joins have fired (the completion is nonempty after a prefix of the run
only when the synchronizer count equals the seed count), and the size
it reads is a single consistent value containing every insert performed
by an address-exchange stage that has signalled its join slot: at that
point the host-set size is exactly the start size plus all pipeline
inserts. -/
theorem comparison_after_all_joins (seeds : List endpoint)
    (size_before : Nat) (outcomes : endpoint → seed_outcome)
    (t p q : List action)
    (hsh : shuffle (pipelines seeds outcomes) t)
    (hpq : t = p ++ q)
    (hfired : (run_trace size_before seeds.length p
      (init_state size_before)).completions ≠ []) :
    (run_trace size_before seeds.length p
      (init_state size_before)).signals = seeds.length ∧
    (run_trace size_before seeds.length p
      (init_state size_before)).hosts_size =
      size_before + total_inserts seeds outcomes := by
  have hwf := wf_pipelines seeds outcomes
  have hsigt : vsum sigv t = seeds.length := by
    rw [shuffle_vsum sigv hsh, lsum_sigv_pipelines]
  have hsplit : vsum sigv t = vsum sigv p + vsum sigv q := by
    rw [hpq, vsum_append]
  have hgep : ¬ (0 + vsum sigv p < seeds.length) := by
    intro hlt
    exact hfired (run_trace_no_fire size_before seeds.length p
      (init_state size_before) rfl hlt)
  have hq0 : vsum sigv q = 0 := by omega
  have hqnil : q = [] := shuffle_suffix_nil hsh hwf p q hpq hq0
  subst hqnil
  rw [List.append_nil] at hpq
  subst hpq
  constructor
  · rw [run_trace_signals]
    show 0 + vsum sigv t = seeds.length
    omega
  · rw [run_trace_hosts]
    show size_before + vsum insv t = size_before + total_inserts seeds outcomes
    rw [shuffle_vsum insv hsh, lsum_insv_pipelines]

/-- Witness for comparison_after_all_joins: two seeds, one successful
pipeline inserting two addresses; after the full trace the completion
has fired, both joins are counted and the size read is the start size
plus both pipelines' inserts. -/
theorem comparison_after_all_joins_witness :
    (run_trace 5 2
      ((pipelines [⟨ "a", 1⟩, ⟨ "b", 2⟩] fun e =>
        if e.port = 1 then ⟨code.success, code.success, code.success, 2⟩
        else ⟨code.other 7, code.success, code.success, 0⟩).foldr
          (· ++ ·) []) (init_state 5)).signals = 2 ∧
    (run_trace 5 2
      ((pipelines [⟨ "a", 1⟩, ⟨ "b", 2⟩] fun e =>
        if e.port = 1 then ⟨code.success, code.success, code.success, 2⟩
        else ⟨code.other 7, code.success, code.success, 0⟩).foldr
          (· ++ ·) []) (init_state 5)).hosts_size =
      5 + total_inserts [⟨ "a", 1⟩, ⟨ "b", 2⟩]
        (fun e =>
          if e.port = 1 then ⟨code.success, code.success, code.success, 2⟩
          else ⟨code.other 7, code.success, code.success, 0⟩) :=
  comparison_after_all_joins [⟨ "a", 1⟩, ⟨ "b", 2⟩] 5
    (fun e => if e.port = 1 then ⟨code.success, code.success, code.success, 2⟩
      else ⟨code.other 7, code.success, code.success, 0⟩)
    ((pipelines [⟨ "a", 1⟩, ⟨ "b", 2⟩] fun e =>
      if e.port = 1 then ⟨code.success, code.success, code.success, 2⟩
      else ⟨code.other 7, code.success, code.success, 0⟩).foldr (· ++ ·) [])
    ((pipelines [⟨ "a", 1⟩, ⟨ "b", 2⟩] fun e =>
      if e.port = 1 then ⟨code.success, code.success, code.success, 2⟩
      else ⟨code.other 7, code.success, code.success, 0⟩).foldr (· ++ ·) [])
    [] (shuffle_seq _) (by simp) (by decide)

end Libbitcoin
